import Mathlib

/-!
Verification of the transposase-scanning pipeline
(`TranspoScan.py`, `TranspoCountSpps.py`).

Strings are modelled as `List Char`.  Python integers are `Int`, Python's
`str.lower`, `str.strip`, `str.split("\t")`, slicing and `int(...)` parsing
are modelled explicitly below, each definition annotated with the source
construct it embeds.
-/

/-- Python whitespace for `str.strip()`: space, \t, \n, \r, \x0b, \x0c. -/
def pyIsSpace (c : Char) : Bool :=
  c = ' ' || c = '\t' || c = '\n' || c = '\r' || c = '\x0b' || c = '\x0c'

/-- Model of `line.strip()`: remove leading and trailing whitespace. -/
def pyStrip (s : List Char) : List Char :=
  ((s.dropWhile pyIsSpace).reverse.dropWhile pyIsSpace).reverse

/-- Model of `s.startswith(p)`: does `p` occur at the very beginning of `s`? -/
def beginsWith : List Char → List Char → Bool
  | [], _ => true
  | _ :: _, [] => false
  | p :: ps, c :: cs => p = c && beginsWith ps cs

/-- Python substring containment `pat in s`. -/
def containsSub (pat : List Char) : List Char → Bool
  | [] => beginsWith pat []
  | c :: rest => beginsWith pat (c :: rest) || containsSub pat rest

/-- Model of `text.lower()` (ASCII range; the scanned annotation text is ASCII). -/
def toLowerStr (s : List Char) : List Char :=
  s.map Char.toLower

/-- A regex word character `\w` (ASCII range): letter, digit or underscore. -/
def isWordChar (c : Char) : Bool :=
  c.isAlpha || c.isDigit || c = '_'

/-- Helper for `line.split("\t")`: accumulate the current field (reversed). -/
def splitTabGo (cur : List Char) : List Char → List (List Char)
  | [] => [cur.reverse]
  | c :: rest =>
      if c = '\t' then cur.reverse :: splitTabGo [] rest
      else splitTabGo (c :: cur) rest

/-- Model of `line.split("\t")`: split on every tab, `n` tabs give `n+1` fields. -/
def splitTab (s : List Char) : List (List Char) :=
  splitTabGo [] s

/-- Digits-only string to its numeric value (helper for `int(...)`). -/
def digitsVal (ds : List Char) : Int :=
  ds.foldl (fun acc c => acc * 10 + ((c.toNat - 48 : Nat) : Int)) 0

/-- Nonempty all-digit string parse (helper for `int(...)`). -/
def digitsToInt? (ds : List Char) : Option Int :=
  if ds = [] then none
  else if ds.all Char.isDigit then some (digitsVal ds) else none

/-- Python `int(s)`: optional surrounding whitespace, optional sign, then a
nonempty digit string; anything else raises `ValueError` (modelled `none`). -/
def pyInt? (s : List Char) : Option Int :=
  match pyStrip s with
  | '+' :: ds => digitsToInt? ds
  | '-' :: ds => (digitsToInt? ds).map (fun n => -n)
  | ds => digitsToInt? ds

/-! ## Keyword classifier (`TranspoScan.py`, `KEYWORDS` / `contains_keyword`) -/

/-- Translation of `TranspoScan.KEYWORDS`, the fixed vocabulary list. -/
def KEYWORDS : List (List Char) :=
  ["transposase".toList,
   "insertion sequence".toList,
   "mobile element".toList,
   "IS family".toList,
   "transposable element".toList,
   "tnpA".toList]

/-- A regex `\b` immediately before a word character holds when the previous
character (`none` = start of string) is not a word character. -/
def isAtBoundary : Option Char → Bool
  | none => true
  | some c => !isWordChar c

/-- Drop the maximal leading digit run (`\d+` is greedy, and `\b` cannot fall
between two digits, so only the position after the full run matters). -/
def dropDigits : List Char → List Char
  | [] => []
  | c :: r => if c.isDigit then dropDigits r else c :: r

/-- Does `IS\d+\b` (case-insensitive) match at the head of the list?  After
the maximal digit run the string must end or continue with a non-word
character. -/
def matchISHere : List Char → Bool
  | c1 :: c2 :: c3 :: rest =>
      (c1 = 'I' || c1 = 'i') && (c2 = 'S' || c2 = 's') && c3.isDigit &&
      (match dropDigits rest with
       | [] => true
       | d :: _ => !isWordChar d)
  | _ => false

/-- Model of `is_family_regex.search(text)`: scan left to right for a position where
`\bIS\d+\b` matches, tracking the previous character for the left `\b`. -/
def isFamilySearch : Option Char → List Char → Bool
  | _, [] => false
  | prev, c :: rest =>
      (isAtBoundary prev && matchISHere (c :: rest)) || isFamilySearch (some c) rest

/-- Translation of `TranspoScan.contains_keyword`: lowercase the text, test each vocabulary
keyword (lowercased) for substring containment, then the IS-family regex. -/
def contains_keyword (text : List Char) : Bool :=
  let text_lower := toLowerStr text
  if KEYWORDS.any (fun k => containsSub (toLowerStr k) text_lower) then true
  else if isFamilySearch none text then true
  else false

/-! ## Reverse complement -/

/-- Modelled from the spec: `Bio.Seq.reverse_complement` is an external
library routine (Biopython), not part of this repository; the spec states it
"maps A↔T, C↔G, case-preserving ...; unknown symbols pass through
unchanged".  Per-character complement. -/
def complement_base (c : Char) : Char :=
  if c = 'A' then 'T' else if c = 'T' then 'A'
  else if c = 'C' then 'G' else if c = 'G' then 'C'
  else if c = 'a' then 't' else if c = 't' then 'a'
  else if c = 'c' then 'g' else if c = 'g' then 'c'
  else c

/-- Modelled from the spec: `Bio.Seq.reverse_complement` — complement every
base, then reverse the order. -/
def reverse_complement (s : List Char) : List Char :=
  (s.map complement_base).reverse

/-! ## Repeat detector (`TranspoScan.py`) -/

/-- Translation of `TranspoScan.count_mismatches`: positionwise mismatch count over
`zip(s1, s2)`; `zip` truncates to the shorter argument. -/
def count_mismatches (s1 s2 : List Char) : Nat :=
  (List.zip s1 s2).countP (fun p => p.1 != p.2)

/-- Translation of `max(1, int(length * 0.15))`, i.e. the ITR allowance, with the ratio 0.15.
`int(L * 0.15)` agrees with `3 * L / 20` (integer division) for every
L in [12, 35], checked against CPython float semantics. -/
def allowed_mismatches (L : Nat) : Nat :=
  max 1 (3 * L / 20)

/-- The ITR mismatch count at candidate length `L`: the first `L` bases
(`seq[:length]`) against the reverse complement of the last `L` bases
(`seq[-length:]`, which Python clamps to the whole string when `L` exceeds
its length — `Nat` subtraction gives the same clamp). -/
def irMis (seq : List Char) (L : Nat) : Nat :=
  count_mismatches (seq.take L) (reverse_complement (seq.drop (seq.length - L)))

/-- The TSD mismatch count at candidate length `L`: first `L` bases against
last `L` bases, no reverse complement. -/
def tsdMis (seq : List Char) (L : Nat) : Nat :=
  count_mismatches (seq.take L) (seq.drop (seq.length - L))

/-- Outcome of a repeat search: `found length mismatches` renders as
`"Yes (<L> bp, <m> mismatches)"`, `notFound` as `"No"` (ITR only), and
`unclear` as `"Unclear"` (TSD only). -/
inductive RepeatResult where
  | found : Nat → Nat → RepeatResult
  | notFound : RepeatResult
  | unclear : RepeatResult
deriving DecidableEq, Repr

/-- Translation of `range(MAX_IR_LEN, MIN_IR_LEN - 1, -1)` = 35, 34, ..., 12. -/
def IR_LENGTHS : List Nat :=
  [35, 34, 33, 32, 31, 30, 29, 28, 27, 26, 25, 24, 23, 22, 21, 20,
   19, 18, 17, 16, 15, 14, 13, 12]

/-- Translation of `range(TSD_MAX_LEN, TSD_MIN_LEN - 1, -1)` = 10, 9, ..., 2. -/
def TSD_LENGTHS : List Nat :=
  [10, 9, 8, 7, 6, 5, 4, 3, 2]

/-- The loop body of `detect_inverted_repeats`: return at the first length
whose mismatch count is within the allowance, else fall through to `"No"`. -/
def irScan (seq : List Char) : List Nat → RepeatResult
  | [] => RepeatResult.notFound
  | L :: rest =>
      if irMis seq L ≤ allowed_mismatches L then RepeatResult.found L (irMis seq L)
      else irScan seq rest

/-- Translation of `TranspoScan.detect_inverted_repeats`. -/
def detect_inverted_repeats (seq : List Char) : RepeatResult :=
  irScan seq IR_LENGTHS

/-- The loop body of `detect_tsd` with `TSD_MAX_MISMATCHES = 1`, falling
through to `"Unclear"`. -/
def tsdScan (seq : List Char) : List Nat → RepeatResult
  | [] => RepeatResult.unclear
  | L :: rest =>
      if tsdMis seq L ≤ 1 then RepeatResult.found L (tsdMis seq L)
      else tsdScan seq rest

/-- Translation of `TranspoScan.detect_tsd`. -/
def detect_tsd (seq : List Char) : RepeatResult :=
  tsdScan seq TSD_LENGTHS

/-! ## Feature extractor (`TranspoScan.extract_transposases`, GFF loop) -/

/-- Python slice `s[a:b]` for integer bounds: a negative index counts from
the end, positive indices clamp to the length, and an empty slice results
when the effective lower bound is not below the upper one. -/
def pySlice (s : List Char) (a b : Int) : List Char :=
  let n : Int := s.length
  let a' : Int := if a < 0 then max 0 (n + a) else min a n
  let b' : Int := if b < 0 then max 0 (n + b) else min b n
  (s.drop a'.toNat).take (b'.toNat - a'.toNat)

/-- Model of `sequences.get(seq_id)` over the FASTA dictionary, modelled as an
association list keyed by record identifier. -/
def lookupSeq (seqs : List (List Char × List Char)) (k : List Char) :
    Option (List Char) :=
  match seqs with
  | [] => none
  | (k', v) :: rest => if k' = k then some v else lookupSeq rest k

/-- The data of one qualifying hit before its identifier is attached:
replicon id, parsed coordinates, strand field, and the extracted
(strand-corrected) window. -/
structure HitCore where
  seqId : List Char
  startPos : Int
  endPos : Int
  strand : List Char
  region : List Char
deriving DecidableEq, Repr

/-- A qualifying hit; `idNum = i + 1` for the 0-based input line index `i`,
rendered by the code as the identifier string `transposase_<idNum>`. -/
structure Hit where
  idNum : Nat
  seqId : List Char
  startPos : Int
  endPos : Int
  strand : List Char
  region : List Char
deriving DecidableEq, Repr

/-- Translation of `FLANK_SIZE` in `TranspoScan.py`. -/
def FLANK_SIZE : Int := 150

/-- The per-line body of the GFF loop in `extract_transposases`, without the
identifier: skip comments (`line.startswith("#")`), skip lines that do not
split into exactly 9 tab fields after `strip()`, skip lines rejected by
`contains_keyword`, then run `int(start), int(end)` — a parse failure is the
uncaught `ValueError` that aborts the whole run (`Except.error`).  Compute
`start_flank = max(0, start - FLANK_SIZE)`, `end_flank = end + FLANK_SIZE`,
skip when the replicon is missing (or its record is empty, which is falsy),
slice the window and reverse-complement it when the strand field is `-`. -/
def processLineCore (seqs : List (List Char × List Char)) (line : List Char) :
    Except Unit (Option HitCore) :=
  if beginsWith ['#'] line then Except.ok none
  else
    match splitTab (pyStrip line) with
    | [seq_id, _source, _ftype, startS, endS, _score, strandS, _phase, attrs] =>
        if !contains_keyword attrs then Except.ok none
        else
          match pyInt? startS, pyInt? endS with
          | some startv, some endv =>
              match lookupSeq seqs seq_id with
              | none => Except.ok none
              | some s =>
                  if s.length = 0 then Except.ok none
                  else
                    Except.ok (some ⟨seq_id, startv, endv, strandS,
                      if strandS = ['-'] then
                        reverse_complement (pySlice s (max 0 (startv - FLANK_SIZE))
                          (endv + FLANK_SIZE))
                      else
                        pySlice s (max 0 (startv - FLANK_SIZE)) (endv + FLANK_SIZE)⟩)
          | _, _ => Except.error ()
    | _ => Except.ok none

/-- Attach the sequential identifier `transposase_<n>` to a hit's data. -/
def mkHit (n : Nat) (c : HitCore) : Hit :=
  ⟨n, c.seqId, c.startPos, c.endPos, c.strand, c.region⟩

/-- One line of the GFF loop at 0-based line index `i`: the emitted record
carries `id = f"transposase_{i+1}"`. -/
def processLine (seqs : List (List Char × List Char)) (i : Nat)
    (line : List Char) : Except Unit (Option Hit) :=
  match processLineCore seqs line with
  | Except.error e => Except.error e
  | Except.ok none => Except.ok none
  | Except.ok (some c) => Except.ok (some (mkHit (i + 1) c))

/-- The GFF loop of `extract_transposases`: `for i, line in enumerate(gff)`,
accumulating hits in input order; an uncaught exception aborts the run. -/
def extractFrom (seqs : List (List Char × List Char)) :
    Nat → List (List Char) → Except Unit (List Hit)
  | _, [] => Except.ok []
  | i, line :: rest =>
      match processLine seqs i line with
      | Except.error e => Except.error e
      | Except.ok none => extractFrom seqs (i + 1) rest
      | Except.ok (some h) =>
          match extractFrom seqs (i + 1) rest with
          | Except.error e => Except.error e
          | Except.ok hs => Except.ok (h :: hs)

/-! ## Window aggregator (`TranspoScan.extract_transposases`, density loop) -/

/-- Translation of `WINDOW_SIZE` in `TranspoScan.py` (10 kb). -/
def WINDOW_SIZE : Nat := 10000

/-- Model of `range(0, seq_length, WINDOW_SIZE)`: the starts `0, W, 2W, ...` below
`seq_length`; there are `⌈seq_length / W⌉` of them. -/
def windowStarts (len : Nat) : List Nat :=
  (List.range ((len + WINDOW_SIZE - 1) / WINDOW_SIZE)).map (· * WINDOW_SIZE)

/-- The density loop's bins: each start is paired with
`window_end = min(window_start + WINDOW_SIZE, seq_length)`. -/
def windowBins (len : Nat) : List (Nat × Nat) :=
  (windowStarts len).map (fun ws => (ws, min (ws + WINDOW_SIZE) len))

/-- Translation of the density loop count
`sum(1 for s, e in hits if not (e < window_start or s > window_end))`:
the count of hit ranges passing the inclusive-overlap test. -/
def binCount (hits : List (Int × Int)) (ws we : Nat) : Nat :=
  hits.countP (fun p => !(decide (p.2 < (ws : Int)) || decide (p.1 > (we : Int))))

/-! ## Assembly filter (`TranspoCountSpps.filter_prefer_gcf`) -/

/-- Length of the maximal leading digit run. -/
def digitRunLen : List Char → Nat
  | [] => 0
  | c :: r => if c.isDigit then digitRunLen r + 1 else 0

/-- Does `(GC[AF]_\d{6,9})\.\d+` match at the head of the list, and if so
what is capture group 1?  The greedy `\d{6,9}` can only end where the digit
run ends (a shorter take leaves a digit, not `.`), so the match requires the
maximal run to have length 6–9 and be followed by `.` and a digit. -/
def accMatchHere : List Char → Option (List Char)
  | 'G' :: 'C' :: x :: '_' :: rest =>
      if x = 'A' || x = 'F' then
        let n := digitRunLen rest
        if 6 ≤ n ∧ n ≤ 9 then
          match rest.drop n with
          | '.' :: d :: _ =>
              if d.isDigit then some (['G', 'C', x, '_'] ++ rest.take n) else none
          | _ => none
        else none
      else none
  | _ => none

/-- Model of `re.search(r"(GC[AF]_\d{6,9})\.\d+", name)`: leftmost match position,
returning capture group 1 (the base accession). -/
def accSearch : List Char → Option (List Char)
  | [] => none
  | c :: rest =>
      match accMatchHere (c :: rest) with
      | some g => some g
      | none => accSearch rest

/-- Python `dict` assignment `d[k] = v`: update in place when the key is
present (keeping its position), else append at the end. -/
def dictInsert (k : List Char) (v : List Char × Int) :
    List (List Char × (List Char × Int)) → List (List Char × (List Char × Int))
  | [] => [(k, v)]
  | (k', v') :: rest =>
      if k' = k then (k', v) :: rest else (k', v') :: dictInsert k v rest

/-- Python `key in dict`. -/
def dictHasKey (k : List Char) : List (List Char × (List Char × Int)) → Bool
  | [] => false
  | (k', _) :: rest => k' = k || dictHasKey k rest

/-- Model of `base_accession.replace("GCA_", "GCF_")`: the base accession always has
shape `GCA_<digits>`, so exactly the leading `GCA_` is rewritten. -/
def gcaToGcf (base : List Char) : List Char :=
  match base with
  | 'G' :: 'C' :: 'A' :: '_' :: rest => 'G' :: 'C' :: 'F' :: '_' :: rest
  | other => other

/-- The loop body of `filter_prefer_gcf`: entries without an accession match
are stored under their name; `GCF_*` entries under their base accession;
`GCA_*` entries only when the corresponding GCF key is not already present
in the dictionary built so far. -/
def filterStep (assemblies : List (List Char × (List Char × Int)))
    (entry : List Char × Int) : List (List Char × (List Char × Int)) :=
  match accSearch entry.1 with
  | none => dictInsert entry.1 entry assemblies
  | some base =>
      if beginsWith "GCF_".toList base then dictInsert base entry assemblies
      else
        if dictHasKey (gcaToGcf base) assemblies then assemblies
        else dictInsert base entry assemblies

/-- Translation of `TranspoCountSpps.filter_prefer_gcf`: fold the entries through the
dictionary and return `list(assemblies.values())` in key-insertion order. -/
def filter_prefer_gcf (results : List (List Char × Int)) : List (List Char × Int) :=
  (results.foldl filterStep []).map Prod.snd

-- Decidable equality on run outcomes, for concrete evaluation.
deriving instance DecidableEq for Except

/-- The character immediately before the current scan position: the last
character of the consumed text `pre`, else the carried previous character. -/
def lastOpt (prev : Option Char) : List Char → Option Char
  | [] => prev
  | c :: rest => lastOpt (some c) rest

/-- Phrasing, in terms of string decomposition, of a whole-word
case-insensitive match of the pattern `IS<digits>`: somewhere in the text,
`I`/`i` then `S`/`s` then one or more digits, preceded by the start of the
text or a non-word character, and followed by the end of the text or a
non-word character. -/
def ISWordMatch (t : List Char) : Prop :=
  ∃ pre c1 c2 ds post,
    t = pre ++ c1 :: c2 :: (ds ++ post) ∧
    (c1 = 'I' ∨ c1 = 'i') ∧ (c2 = 'S' ∨ c2 = 's') ∧
    ds ≠ [] ∧ (∀ d ∈ ds, d.isDigit = true) ∧
    (pre = [] ∨ ∃ ps p, pre = ps ++ [p] ∧ isWordChar p = false) ∧
    (post = [] ∨ ∃ q qs, post = q :: qs ∧ isWordChar q = false)

/-! ### Concrete sample inputs used by counterexamples and witnesses -/

/-- A one-replicon sequence dictionary with a 5-base replicon `chr1`. -/
def sampleSeqs : List (List Char × List Char) :=
  [("chr1".toList, "ACGTA".toList)]

/-- A GFF comment line. -/
def commentLine : List Char := "# comment".toList

/-- A well-formed qualifying feature line on `chr1`, coordinates 10..20. -/
def goodLine : List Char :=
  "chr1\tsrc\tgene\t10\t20\t.\t+\t.\tproduct=transposase".toList

/-- The hit the extractor produces from `goodLine` when it is the second
input line (0-based line index 1, so identifier number 2). -/
def sampleHit : Hit := ⟨2, "chr1".toList, 10, 20, "+".toList, "ACGTA".toList⟩

/-- The hit the extractor produces from `goodLine` as the first input line. -/
def goodHit : Hit := ⟨1, "chr1".toList, 10, 20, "+".toList, "ACGTA".toList⟩

/-- A qualifying feature line whose start field is not numeric. -/
def badStartLine : List Char :=
  "chr1\tsrc\tgene\tabc\t20\t.\t+\t.\tproduct=transposase".toList

/-- A qualifying feature line whose end field is not numeric. -/
def badEndLine : List Char :=
  "chr1\tsrc\tgene\t10\txyz\t.\t+\t.\tproduct=transposase".toList

/-- A one-replicon dictionary with a 300-base replicon `chr1`. -/
def seqs300 : List (List Char × List Char) :=
  [("chr1".toList, List.replicate 300 'A')]

/-- A qualifying feature line with start 400 greater than end 50. -/
def reversedLine : List Char :=
  "chr1\tsrc\tgene\t400\t50\t.\t+\t.\tproduct=transposase".toList

/-- The hit produced from `reversedLine` on `seqs300`: its window is empty. -/
def reversedHit : Hit := ⟨1, "chr1".toList, 400, 50, "+".toList, []⟩

/-- A qualifying feature line with start 500 greater than end 100. -/
def reversedLine2 : List Char :=
  "chr1\tsrc\tgene\t500\t100\t.\t+\t.\tproduct=transposase".toList

/-- The hit produced from `reversedLine2` on `seqs300`: empty window. -/
def reversedHit2 : Hit := ⟨1, "chr1".toList, 500, 100, "+".toList, []⟩

/-! ## Lemmas about the repeat scans -/

theorem mem_IR_LENGTHS (L : Nat) : L ∈ IR_LENGTHS ↔ 12 ≤ L ∧ L ≤ 35 := by
  simp [IR_LENGTHS]
  omega

theorem mem_TSD_LENGTHS (L : Nat) : L ∈ TSD_LENGTHS ↔ 2 ≤ L ∧ L ≤ 10 := by
  simp [TSD_LENGTHS]
  omega

theorem IR_LENGTHS_sorted : IR_LENGTHS.Pairwise (· > ·) := by decide

theorem TSD_LENGTHS_sorted : TSD_LENGTHS.Pairwise (· > ·) := by decide

theorem irScan_eq_notFound (seq : List Char) :
    ∀ ls : List Nat, irScan seq ls = RepeatResult.notFound ↔
      ∀ L ∈ ls, allowed_mismatches L < irMis seq L := by
  intro ls
  induction ls with
  | nil => simp [irScan]
  | cons a rest ih =>
      by_cases h : irMis seq a ≤ allowed_mismatches a
      · simp only [irScan, if_pos h]
        constructor
        · intro hc; exact absurd hc (by simp)
        · intro hall
          have := hall a (List.mem_cons_self a rest)
          omega
      · simp only [irScan, if_neg h]
        rw [ih]
        constructor
        · intro hall L hL
          rcases List.mem_cons.mp hL with rfl | hL'
          · omega
          · exact hall L hL'
        · intro hall L hL
          exact hall L (List.mem_cons_of_mem a hL)

theorem irScan_found (seq : List Char) :
    ∀ (ls : List Nat) (L m : Nat), irScan seq ls = RepeatResult.found L m →
      L ∈ ls ∧ m = irMis seq L ∧ irMis seq L ≤ allowed_mismatches L := by
  intro ls
  induction ls with
  | nil => intro L m h; exact absurd h (by simp [irScan])
  | cons a rest ih =>
      intro L m h
      by_cases ha : irMis seq a ≤ allowed_mismatches a
      · simp only [irScan, if_pos ha, RepeatResult.found.injEq] at h
        obtain ⟨rfl, rfl⟩ := h
        exact ⟨List.mem_cons_self a rest, rfl, ha⟩
      · simp only [irScan, if_neg ha] at h
        obtain ⟨hmem, hm, hle⟩ := ih L m h
        exact ⟨List.mem_cons_of_mem a hmem, hm, hle⟩

theorem irScan_found_first (seq : List Char) :
    ∀ (ls : List Nat), ls.Pairwise (· > ·) →
      ∀ (L m : Nat), irScan seq ls = RepeatResult.found L m →
        ∀ K ∈ ls, L < K → allowed_mismatches K < irMis seq K := by
  intro ls
  induction ls with
  | nil => intro _ L m h; exact absurd h (by simp [irScan])
  | cons a rest ih =>
      intro hp L m h K hK hLK
      obtain ⟨ha, hrest⟩ := List.pairwise_cons.mp hp
      by_cases hacc : irMis seq a ≤ allowed_mismatches a
      · simp only [irScan, if_pos hacc, RepeatResult.found.injEq] at h
        obtain ⟨rfl, rfl⟩ := h
        rcases List.mem_cons.mp hK with rfl | hK'
        · omega
        · exact absurd hLK (by have := ha K hK'; omega)
      · simp only [irScan, if_neg hacc] at h
        rcases List.mem_cons.mp hK with rfl | hK'
        · omega
        · exact ih hrest L m h K hK' hLK

theorem irScan_ne_unclear (seq : List Char) :
    ∀ ls : List Nat, irScan seq ls ≠ RepeatResult.unclear := by
  intro ls
  induction ls with
  | nil => simp [irScan]
  | cons a rest ih =>
      by_cases h : irMis seq a ≤ allowed_mismatches a
      · simp [irScan, if_pos h]
      · simpa [irScan, if_neg h] using ih

theorem tsdScan_eq_unclear (seq : List Char) :
    ∀ ls : List Nat, tsdScan seq ls = RepeatResult.unclear ↔
      ∀ L ∈ ls, 1 < tsdMis seq L := by
  intro ls
  induction ls with
  | nil => simp [tsdScan]
  | cons a rest ih =>
      by_cases h : tsdMis seq a ≤ 1
      · simp only [tsdScan, if_pos h]
        constructor
        · intro hc; exact absurd hc (by simp)
        · intro hall
          have := hall a (List.mem_cons_self a rest)
          omega
      · simp only [tsdScan, if_neg h]
        rw [ih]
        constructor
        · intro hall L hL
          rcases List.mem_cons.mp hL with rfl | hL'
          · omega
          · exact hall L hL'
        · intro hall L hL
          exact hall L (List.mem_cons_of_mem a hL)

theorem tsdScan_found (seq : List Char) :
    ∀ (ls : List Nat) (L m : Nat), tsdScan seq ls = RepeatResult.found L m →
      L ∈ ls ∧ m = tsdMis seq L ∧ tsdMis seq L ≤ 1 := by
  intro ls
  induction ls with
  | nil => intro L m h; exact absurd h (by simp [tsdScan])
  | cons a rest ih =>
      intro L m h
      by_cases ha : tsdMis seq a ≤ 1
      · simp only [tsdScan, if_pos ha, RepeatResult.found.injEq] at h
        obtain ⟨rfl, rfl⟩ := h
        exact ⟨List.mem_cons_self a rest, rfl, ha⟩
      · simp only [tsdScan, if_neg ha] at h
        obtain ⟨hmem, hm, hle⟩ := ih L m h
        exact ⟨List.mem_cons_of_mem a hmem, hm, hle⟩

theorem tsdScan_found_first (seq : List Char) :
    ∀ (ls : List Nat), ls.Pairwise (· > ·) →
      ∀ (L m : Nat), tsdScan seq ls = RepeatResult.found L m →
        ∀ K ∈ ls, L < K → 1 < tsdMis seq K := by
  intro ls
  induction ls with
  | nil => intro _ L m h; exact absurd h (by simp [tsdScan])
  | cons a rest ih =>
      intro hp L m h K hK hLK
      obtain ⟨ha, hrest⟩ := List.pairwise_cons.mp hp
      by_cases hacc : tsdMis seq a ≤ 1
      · simp only [tsdScan, if_pos hacc, RepeatResult.found.injEq] at h
        obtain ⟨rfl, rfl⟩ := h
        rcases List.mem_cons.mp hK with rfl | hK'
        · omega
        · exact absurd hLK (by have := ha K hK'; omega)
      · simp only [tsdScan, if_neg hacc] at h
        rcases List.mem_cons.mp hK with rfl | hK'
        · omega
        · exact ih hrest L m h K hK' hLK

theorem tsdScan_ne_notFound (seq : List Char) :
    ∀ ls : List Nat, tsdScan seq ls ≠ RepeatResult.notFound := by
  intro ls
  induction ls with
  | nil => simp [tsdScan]
  | cons a rest ih =>
      by_cases h : tsdMis seq a ≤ 1
      · simp [tsdScan, if_pos h]
      · simpa [tsdScan, if_neg h] using ih

/-- C3: the ITR search scans candidate lengths 35 down to 12, comparing the
first L bases with the reverse complement of the last L bases; a `found`
report carries the first (longest) accepted length and its mismatch count,
which satisfies `max(1, ⌊0.15 L⌋)`; a reported length is never outside
[12, 35]; `notFound` holds exactly when every length in [12, 35] is
rejected; the ITR search never reports the TSD-only `unclear` outcome. -/
theorem itr_search_spec (seq : List Char) :
    (∀ L m, detect_inverted_repeats seq = RepeatResult.found L m →
        12 ≤ L ∧ L ≤ 35 ∧ m = irMis seq L ∧ m ≤ allowed_mismatches L ∧
        ∀ K, L < K → K ≤ 35 → allowed_mismatches K < irMis seq K) ∧
    (detect_inverted_repeats seq = RepeatResult.notFound ↔
        ∀ L, 12 ≤ L → L ≤ 35 → allowed_mismatches L < irMis seq L) ∧
    detect_inverted_repeats seq ≠ RepeatResult.unclear := by
  refine ⟨?_, ?_, irScan_ne_unclear seq IR_LENGTHS⟩
  · intro L m h
    obtain ⟨hmem, hm, hle⟩ := irScan_found seq IR_LENGTHS L m h
    obtain ⟨h12, h35⟩ := (mem_IR_LENGTHS L).mp hmem
    refine ⟨h12, h35, hm, hm ▸ hle, ?_⟩
    intro K hLK hK35
    have hKmem : K ∈ IR_LENGTHS := (mem_IR_LENGTHS K).mpr ⟨by omega, hK35⟩
    exact irScan_found_first seq IR_LENGTHS IR_LENGTHS_sorted L m h K hKmem hLK
  · rw [show detect_inverted_repeats seq = irScan seq IR_LENGTHS from rfl,
        irScan_eq_notFound seq IR_LENGTHS]
    constructor
    · intro hall L h12 h35
      exact hall L ((mem_IR_LENGTHS L).mpr ⟨h12, h35⟩)
    · intro hall L hmem
      obtain ⟨h12, h35⟩ := (mem_IR_LENGTHS L).mp hmem
      exact hall L h12 h35

/-- Witness for C3 at the concrete window "ACGT" (which is accepted at
length 35 with 0 mismatches because `zip` truncates the comparison). -/
theorem itr_search_spec_witness :
    12 ≤ 35 ∧ 35 ≤ 35 ∧ 0 = irMis "ACGT".toList 35 ∧
    0 ≤ allowed_mismatches 35 ∧
    ∀ K, 35 < K → K ≤ 35 → allowed_mismatches K < irMis "ACGT".toList K :=
  (itr_search_spec "ACGT".toList).1 35 0 (by decide)

/-- C4: the TSD search scans candidate lengths 10 down to 2, comparing the
first L bases with the last L bases without reverse complement; a `found`
report carries the first (longest) accepted length and its mismatch count,
which is at most 1; a reported length is never outside [2, 10]; `unclear`
(a tag distinct from the ITR's `notFound`, which the TSD search never
reports) holds exactly when every length in [2, 10] is rejected. -/
theorem tsd_search_spec (seq : List Char) :
    (∀ L m, detect_tsd seq = RepeatResult.found L m →
        2 ≤ L ∧ L ≤ 10 ∧ m = tsdMis seq L ∧ m ≤ 1 ∧
        ∀ K, L < K → K ≤ 10 → 1 < tsdMis seq K) ∧
    (detect_tsd seq = RepeatResult.unclear ↔
        ∀ L, 2 ≤ L → L ≤ 10 → 1 < tsdMis seq L) ∧
    detect_tsd seq ≠ RepeatResult.notFound := by
  refine ⟨?_, ?_, tsdScan_ne_notFound seq TSD_LENGTHS⟩
  · intro L m h
    obtain ⟨hmem, hm, hle⟩ := tsdScan_found seq TSD_LENGTHS L m h
    obtain ⟨h2, h10⟩ := (mem_TSD_LENGTHS L).mp hmem
    refine ⟨h2, h10, hm, hm ▸ hle, ?_⟩
    intro K hLK hK10
    have hKmem : K ∈ TSD_LENGTHS := (mem_TSD_LENGTHS K).mpr ⟨by omega, hK10⟩
    exact tsdScan_found_first seq TSD_LENGTHS TSD_LENGTHS_sorted L m h K hKmem hLK
  · rw [show detect_tsd seq = tsdScan seq TSD_LENGTHS from rfl,
        tsdScan_eq_unclear seq TSD_LENGTHS]
    constructor
    · intro hall L h2 h10
      exact hall L ((mem_TSD_LENGTHS L).mpr ⟨h2, h10⟩)
    · intro hall L hmem
      obtain ⟨h2, h10⟩ := (mem_TSD_LENGTHS L).mp hmem
      exact hall L h2 h10

/-- Witness for C4 at the concrete window "ACGT". -/
theorem tsd_search_spec_witness :
    2 ≤ 10 ∧ 10 ≤ 10 ∧ 0 = tsdMis "ACGT".toList 10 ∧
    0 ≤ 1 ∧
    ∀ K, 10 < K → K ≤ 10 → 1 < tsdMis "ACGT".toList K :=
  (tsd_search_spec "ACGT".toList).1 10 0 (by decide)

/-! ## Reverse complement (C8) and zip truncation (C10) -/

/-- C8: reverse-complement maps A↔T and C↔G case-preservingly, passes
unknown symbols through unchanged, reverses order, and is an involution on
sequences over {A, C, G, T}. -/
theorem revcomp_spec :
    (∀ s : List Char, (∀ c ∈ s, c = 'A' ∨ c = 'C' ∨ c = 'G' ∨ c = 'T') →
        reverse_complement (reverse_complement s) = s) ∧
    complement_base 'A' = 'T' ∧ complement_base 'T' = 'A' ∧
    complement_base 'C' = 'G' ∧ complement_base 'G' = 'C' ∧
    complement_base 'a' = 't' ∧ complement_base 't' = 'a' ∧
    complement_base 'c' = 'g' ∧ complement_base 'g' = 'c' ∧
    (∀ c : Char, c ≠ 'A' → c ≠ 'T' → c ≠ 'C' → c ≠ 'G' →
        c ≠ 'a' → c ≠ 't' → c ≠ 'c' → c ≠ 'g' → complement_base c = c) ∧
    (∀ s : List Char, reverse_complement s = (s.map complement_base).reverse) := by
  refine ⟨?_, by decide, by decide, by decide, by decide, by decide, by decide,
          by decide, by decide, ?_, fun s => rfl⟩
  · intro s h
    unfold reverse_complement
    rw [List.map_reverse, List.reverse_reverse, List.map_map]
    conv_rhs => rw [← List.map_id s]
    refine List.map_congr_left ?_
    intro a ha
    rcases h a ha with rfl | rfl | rfl | rfl <;> decide
  · intro c h1 h2 h3 h4 h5 h6 h7 h8
    simp [complement_base, h1, h2, h3, h4, h5, h6, h7, h8]

/-- Witness for C8 at the concrete sequence "ACGT". -/
theorem revcomp_spec_witness :
    reverse_complement (reverse_complement "ACGT".toList) = "ACGT".toList :=
  revcomp_spec.1 "ACGT".toList (by decide)

/-- C10: `zip` truncation means a window shorter than the candidate length
is compared over only its own length; in particular the empty window is
accepted immediately by both searches, at 35 bp / 0 mismatches (ITR) and
10 bp / 0 mismatches (TSD), so `found` does not imply the window holds 2·L
bases. -/
theorem truncated_pairing_spec :
    detect_inverted_repeats [] = RepeatResult.found 35 0 ∧
    detect_tsd [] = RepeatResult.found 10 0 ∧
    (∀ (seq : List Char) (L : Nat), seq.length < L →
        (List.zip (seq.take L)
            (reverse_complement (seq.drop (seq.length - L)))).length = seq.length ∧
        (List.zip (seq.take L) (seq.drop (seq.length - L))).length = seq.length) := by
  refine ⟨by decide, by decide, ?_⟩
  intro seq L hL
  have htake : seq.take L = seq := List.take_of_length_le (by omega)
  have hdrop : seq.drop (seq.length - L) = seq := by
    have h0 : seq.length - L = 0 := by omega
    rw [h0, List.drop_zero]
  rw [htake, hdrop]
  constructor
  · rw [List.length_zip]
    simp [reverse_complement]
  · rw [List.length_zip]
    omega

/-- Witness for C10 at the two-base window ['A', 'C'] and length 35. -/
theorem truncated_pairing_spec_witness :
    (['A', 'C'] : List Char).length < 35 ∧
    ((List.zip ((['A', 'C'] : List Char).take 35)
        (reverse_complement ((['A', 'C'] : List Char).drop
          ((['A', 'C'] : List Char).length - 35)))).length
        = (['A', 'C'] : List Char).length ∧
     (List.zip ((['A', 'C'] : List Char).take 35)
        ((['A', 'C'] : List Char).drop
          ((['A', 'C'] : List Char).length - 35))).length
        = (['A', 'C'] : List Char).length) :=
  ⟨by decide, truncated_pairing_spec.2.2 ['A', 'C'] 35 (by decide)⟩

/-! ## Keyword classifier characterization (C5) -/

theorem lastOpt_concat (prev : Option Char) :
    ∀ (ps : List Char) (p : Char), lastOpt prev (ps ++ [p]) = some p := by
  intro ps
  induction ps generalizing prev with
  | nil => intro p; rfl
  | cons a as ih => intro p; exact ih (some a) p

theorem boundary_left_iff (pre : List Char) :
    isAtBoundary (lastOpt none pre) = true ↔
      (pre = [] ∨ ∃ ps p, pre = ps ++ [p] ∧ isWordChar p = false) := by
  rcases List.eq_nil_or_concat pre with rfl | ⟨ps, p, rfl⟩
  · simp [lastOpt, isAtBoundary]
  · rw [List.concat_eq_append, lastOpt_concat]
    simp only [isAtBoundary, Bool.not_eq_true']
    constructor
    · intro hw
      exact Or.inr ⟨ps, p, rfl, hw⟩
    · rintro (h | ⟨ps', p', heq, hw⟩)
      · exact absurd h (by simp)
      · have hrev := congrArg List.reverse heq
        simp only [List.reverse_append, List.reverse_cons, List.reverse_nil,
          List.nil_append, List.cons_append, List.cons.injEq] at hrev
        obtain ⟨rfl, -⟩ := hrev
        exact hw

theorem isFamilySearch_iff (t : List Char) :
    ∀ prev : Option Char,
      isFamilySearch prev t = true ↔
        ∃ pre rest, t = pre ++ rest ∧
          isAtBoundary (lastOpt prev pre) = true ∧ matchISHere rest = true := by
  induction t with
  | nil =>
      intro prev
      simp only [isFamilySearch]
      constructor
      · intro h; exact absurd h (by simp)
      · rintro ⟨pre, rest, heq, -, hm⟩
        have hrest : rest = [] := (List.append_eq_nil.mp heq.symm).2
        subst hrest
        simp [matchISHere] at hm
  | cons c cs ih =>
      intro prev
      simp only [isFamilySearch, Bool.or_eq_true, Bool.and_eq_true]
      constructor
      · rintro (⟨hb, hm⟩ | hrec)
        · exact ⟨[], c :: cs, rfl, hb, hm⟩
        · obtain ⟨pre, rest, heq, hb, hm⟩ := (ih (some c)).mp hrec
          exact ⟨c :: pre, rest, by rw [heq, List.cons_append], hb, hm⟩
      · rintro ⟨pre, rest, heq, hb, hm⟩
        cases pre with
        | nil =>
            left
            simp only [List.nil_append] at heq
            subst heq
            exact ⟨hb, hm⟩
        | cons p ps =>
            right
            simp only [List.cons_append, List.cons.injEq] at heq
            obtain ⟨rfl, hcs⟩ := heq
            exact (ih (some c)).mpr ⟨ps, rest, hcs, hb, hm⟩

theorem dropDigits_eq_dropWhile (l : List Char) :
    dropDigits l = l.dropWhile (fun c => c.isDigit) := by
  induction l with
  | nil => rfl
  | cons c r ih =>
      by_cases h : c.isDigit
      · simp [dropDigits, h, List.dropWhile_cons, ih]
      · simp [dropDigits, h, List.dropWhile_cons]

theorem dropDigits_append_digits (ds post : List Char)
    (h : ∀ d ∈ ds, d.isDigit = true) :
    dropDigits (ds ++ post) = dropDigits post := by
  induction ds with
  | nil => rfl
  | cons d ds' ih =>
      have hd : d.isDigit = true := h d (List.mem_cons_self d ds')
      simp only [List.cons_append, dropDigits, hd, if_pos]
      exact ih (fun x hx => h x (List.mem_cons_of_mem d hx))

theorem matchISHere_iff (r : List Char) :
    matchISHere r = true ↔
      ∃ c1 c2 ds post, r = c1 :: c2 :: (ds ++ post) ∧
        (c1 = 'I' ∨ c1 = 'i') ∧ (c2 = 'S' ∨ c2 = 's') ∧ ds ≠ [] ∧
        (∀ d ∈ ds, d.isDigit = true) ∧
        (post = [] ∨ ∃ q qs, post = q :: qs ∧ isWordChar q = false) := by
  constructor
  · intro h
    cases r with
    | nil => exact absurd h (by simp [matchISHere])
    | cons c1 r1 =>
      cases r1 with
      | nil => exact absurd h (by simp [matchISHere])
      | cons c2 r2 =>
        cases r2 with
        | nil => exact absurd h (by simp [matchISHere])
        | cons c3 rest =>
          simp only [matchISHere, Bool.and_eq_true, Bool.or_eq_true,
            decide_eq_true_eq] at h
          obtain ⟨⟨⟨h1, h2⟩, h3⟩, h4⟩ := h
          refine ⟨c1, c2, c3 :: rest.takeWhile (fun c => c.isDigit),
                  rest.dropWhile (fun c => c.isDigit), ?_, h1, h2, by simp, ?_, ?_⟩
          · simp [List.takeWhile_append_dropWhile]
          · intro d hd
            rcases List.mem_cons.mp hd with rfl | hd'
            · exact h3
            · exact List.mem_takeWhile_imp hd'
          · rw [dropDigits_eq_dropWhile] at h4
            cases hq : rest.dropWhile (fun c => c.isDigit) with
            | nil => exact Or.inl rfl
            | cons q qs =>
                rw [hq] at h4
                exact Or.inr ⟨q, qs, rfl, by simpa using h4⟩
  · rintro ⟨c1, c2, ds, post, rfl, h1, h2, hne, hds, hpost⟩
    cases ds with
    | nil => exact absurd rfl hne
    | cons d0 ds' =>
        have hd0 : d0.isDigit = true := hds d0 (List.mem_cons_self d0 ds')
        simp only [List.cons_append, matchISHere, Bool.and_eq_true, Bool.or_eq_true,
          decide_eq_true_eq]
        refine ⟨⟨⟨h1, h2⟩, hd0⟩, ?_⟩
        rw [dropDigits_append_digits ds' post
              (fun x hx => hds x (List.mem_cons_of_mem d0 hx))]
        rcases hpost with rfl | ⟨q, qs, rfl, hq⟩
        · simp [dropDigits]
        · have hqd : q.isDigit = false := by
            by_contra hc
            have : isWordChar q = true := by
              simp only [isWordChar, Bool.or_eq_true]
              exact Or.inl (Or.inr (by simpa using hc))
            rw [this] at hq
            exact absurd hq (by simp)
          simp [dropDigits, hqd, hq]

theorem isFamilySearch_eq_ISWordMatch (t : List Char) :
    isFamilySearch none t = true ↔ ISWordMatch t := by
  rw [isFamilySearch_iff t none]
  constructor
  · rintro ⟨pre, rest, rfl, hb, hm⟩
    obtain ⟨c1, c2, ds, post, rfl, h1, h2, hne, hds, hpost⟩ :=
      (matchISHere_iff rest).mp hm
    exact ⟨pre, c1, c2, ds, post, rfl, h1, h2, hne, hds,
           (boundary_left_iff pre).mp hb, hpost⟩
  · rintro ⟨pre, c1, c2, ds, post, rfl, h1, h2, hne, hds, hleft, hpost⟩
    exact ⟨pre, c1 :: c2 :: (ds ++ post), rfl, (boundary_left_iff pre).mpr hleft,
           (matchISHere_iff _).mpr ⟨c1, c2, ds, post, rfl, h1, h2, hne, hds, hpost⟩⟩

/-- C5: the keyword classifier returns true exactly when the lowercased text
contains one of the lowercased vocabulary terms as a substring, or the text
contains a whole-word, case-insensitive `IS<digits>` token; and on the
spec's three examples it returns false, true, false respectively. -/
theorem keyword_classifier_spec :
    (∀ t : List Char, contains_keyword t = true ↔
        ((∃ k ∈ KEYWORDS, containsSub (toLowerStr k) (toLowerStr t) = true) ∨
         ISWordMatch t)) ∧
    contains_keyword "hypothetical protein".toList = false ∧
    contains_keyword "IS110 family transposase".toList = true ∧
    contains_keyword "ISland view".toList = false := by
  refine ⟨?_, by decide, by decide, by decide⟩
  intro t
  rw [← isFamilySearch_eq_ISWordMatch]
  by_cases h1 : KEYWORDS.any (fun k => containsSub (toLowerStr k) (toLowerStr t)) = true
  · simp only [contains_keyword, h1, if_pos]
    simp only [List.any_eq_true] at h1
    simp [h1]
  · by_cases h2 : isFamilySearch none t = true
    · simp only [contains_keyword]
      rw [if_neg h1, if_pos h2]
      simp [h2]
    · simp only [contains_keyword]
      rw [if_neg h1, if_neg h2]
      simp only [List.any_eq_true] at h1
      simp [h1, h2]

/-- Witness for C5: the classifier accepts the text "IS10" through the
whole-word IS-family branch of the characterization. -/
theorem keyword_classifier_spec_witness :
    contains_keyword "IS10".toList = true :=
  (keyword_classifier_spec.1 "IS10".toList).mpr
    (Or.inr ⟨[], 'I', 'S', ['1', '0'], [], by decide, Or.inl rfl, Or.inl rfl,
      by decide, by decide, Or.inl rfl, Or.inl rfl⟩)

/-! ## Window aggregator (C6) -/

theorem windowBins_getD (len k : Nat) (hk : k < (windowBins len).length) :
    (windowBins len).getD k (0, 0) =
      (k * WINDOW_SIZE, min ((k + 1) * WINDOW_SIZE) len) := by
  rw [List.getD_eq_getElem _ _ hk]
  simp only [windowBins, windowStarts] at hk ⊢
  simp only [List.getElem_map, List.getElem_range]
  rw [Nat.add_mul, Nat.one_mul]

theorem windowBins_length (len : Nat) :
    (windowBins len).length = (len + WINDOW_SIZE - 1) / WINDOW_SIZE := by
  simp [windowBins, windowStarts]

/-- C6: the window aggregator tiles `[0, len)` with ascending, non-overlapping
10 000-base bins, the last bin possibly shorter; a replicon of length 25 000
gives exactly the three bins [0,10000), [10000,20000), [20000,25000); and a
bin's count is the number of hit ranges passing the inclusive-overlap test
`not (hit_end < bin_start or hit_start > bin_end)`. -/
theorem window_aggregator_spec :
    windowBins 25000 = [(0, 10000), (10000, 20000), (20000, 25000)] ∧
    (∀ len : Nat, (windowBins len).length = (len + WINDOW_SIZE - 1) / WINDOW_SIZE) ∧
    (∀ len k : Nat, k < (windowBins len).length →
        (windowBins len).getD k (0, 0) =
          (k * WINDOW_SIZE, min ((k + 1) * WINDOW_SIZE) len)) ∧
    (∀ len ws we : Nat, (ws, we) ∈ windowBins len → ws < we ∧ we ≤ len) ∧
    (∀ len p : Nat, p < len →
        ∃ ws we, (ws, we) ∈ windowBins len ∧ ws ≤ p ∧ p < we) ∧
    (∀ len i j : Nat, i < j → j < (windowBins len).length →
        ((windowBins len).getD i (0, 0)).2 ≤ ((windowBins len).getD j (0, 0)).1) ∧
    (∀ (hits : List (Int × Int)) (ws we : Nat), binCount hits ws we =
        (hits.filter
          (fun p => !(decide (p.2 < (ws : Int)) || decide (p.1 > (we : Int))))).length) := by
  refine ⟨by decide, windowBins_length, windowBins_getD, ?_, ?_, ?_, ?_⟩
  · intro len ws we hmem
    simp only [windowBins, windowStarts, List.mem_map, List.mem_range] at hmem
    obtain ⟨k, ⟨j, hj, rfl⟩, heq⟩ := hmem
    obtain ⟨rfl, rfl⟩ := Prod.mk.injEq .. ▸ heq
    simp only [WINDOW_SIZE] at hj ⊢
    omega
  · intro len p hp
    refine ⟨(p / WINDOW_SIZE) * WINDOW_SIZE,
            min ((p / WINDOW_SIZE) * WINDOW_SIZE + WINDOW_SIZE) len, ?_, ?_, ?_⟩
    · simp only [windowBins, windowStarts, List.mem_map, List.mem_range]
      refine ⟨p / WINDOW_SIZE * WINDOW_SIZE, ⟨p / WINDOW_SIZE, ?_, rfl⟩, rfl⟩
      simp only [WINDOW_SIZE]
      omega
    · exact Nat.div_mul_le_self p WINDOW_SIZE
    · simp only [WINDOW_SIZE]
      omega
  · intro len i j hij hj
    have hi : i < (windowBins len).length := by omega
    rw [windowBins_getD len i hi, windowBins_getD len j hj]
    simp only [WINDOW_SIZE]
    calc min ((i + 1) * 10000) (len) ≤ (i + 1) * 10000 := Nat.min_le_left _ _
      _ ≤ j * 10000 := Nat.mul_le_mul_right _ (by omega)
  · intro hits ws we
    simp [binCount, List.countP_eq_length_filter]

/-- Witness for C6: the second bin of a 25 000-base replicon. -/
theorem window_aggregator_spec_witness :
    (windowBins 25000).getD 1 (0, 0) = (1 * WINDOW_SIZE, min ((1 + 1) * WINDOW_SIZE) 25000) :=
  window_aggregator_spec.2.2.1 25000 1 (by decide)

/-! ## Feature extractor lemmas (C1, C2, C7) -/

theorem processLine_ok_some (seqs : List (List Char × List Char)) (i : Nat)
    (line : List Char) (h : Hit)
    (hp : processLine seqs i line = Except.ok (some h)) :
    h.idNum = i + 1 ∧ ∃ c, processLineCore seqs line = Except.ok (some c) ∧
      h = mkHit (i + 1) c := by
  unfold processLine at hp
  split at hp
  · exact absurd hp (by simp)
  · exact absurd hp (by simp)
  · next c heq =>
      simp only [Except.ok.injEq, Option.some.injEq] at hp
      subst hp
      exact ⟨rfl, c, heq, rfl⟩

theorem processLineCore_ok_some (seqs : List (List Char × List Char))
    (line : List Char) (c : HitCore)
    (h : processLineCore seqs line = Except.ok (some c)) :
    ∃ s, lookupSeq seqs c.seqId = some s ∧ s.length ≠ 0 ∧
      c.region = (if c.strand = ['-'] then
          reverse_complement (pySlice s (max 0 (c.startPos - FLANK_SIZE))
            (c.endPos + FLANK_SIZE))
        else
          pySlice s (max 0 (c.startPos - FLANK_SIZE)) (c.endPos + FLANK_SIZE)) := by
  unfold processLineCore at h
  split at h
  · exact absurd h (by simp)
  split at h
  case _ seq_id _source _ftype startS endS _score strandS _phase attrs =>
    split at h
    · exact absurd h (by simp)
    split at h
    case _ startv endv =>
      split at h
      · exact absurd h (by simp)
      case _ s hs =>
        split at h
        · exact absurd h (by simp)
        case _ hlen =>
          simp only [Except.ok.injEq, Option.some.injEq] at h
          subst h
          exact ⟨s, hs, hlen, rfl⟩
    case _ => exact absurd h (by simp)
  case _ => exact absurd h (by simp)

theorem extractFrom_ok (seqs : List (List Char × List Char)) :
    ∀ (lines : List (List Char)) (i : Nat) (hits : List Hit),
      extractFrom seqs i lines = Except.ok hits →
      (∀ h ∈ hits, i < h.idNum) ∧
      (hits.map Hit.idNum).Pairwise (· < ·) ∧
      (∀ h ∈ hits, ∃ j, j < lines.length ∧ h.idNum = i + j + 1 ∧
        processLine seqs (i + j) (lines.getD j []) = Except.ok (some h)) := by
  intro lines
  induction lines with
  | nil =>
      intro i hits he
      simp only [extractFrom, Except.ok.injEq] at he
      subst he
      simp
  | cons line rest ih =>
      intro i hits he
      simp only [extractFrom] at he
      split at he
      · exact absurd he (by simp)
      · obtain ⟨hlow, hpw, hex⟩ := ih (i + 1) hits he
        refine ⟨fun h hh => by have := hlow h hh; omega, hpw, ?_⟩
        intro h hh
        obtain ⟨j, hj, hid, hpl⟩ := hex h hh
        refine ⟨j + 1, by simpa using Nat.succ_lt_succ hj, by omega, ?_⟩
        have hshift : i + (j + 1) = i + 1 + j := by omega
        rw [hshift]
        simpa using hpl
      · next h0 hp0 =>
          split at he
          · exact absurd he (by simp)
          · next hs hr =>
              simp only [Except.ok.injEq] at he
              subst he
              obtain ⟨hid0, c, hcore, hmk⟩ := processLine_ok_some seqs i line h0 hp0
              obtain ⟨hlow, hpw, hex⟩ := ih (i + 1) hs hr
              refine ⟨?_, ?_, ?_⟩
              · intro h hh
                rcases List.mem_cons.mp hh with rfl | hh'
                · omega
                · have := hlow h hh'; omega
              · rw [List.map_cons, List.pairwise_cons]
                refine ⟨?_, hpw⟩
                intro b hb
                simp only [List.mem_map] at hb
                obtain ⟨h, hh, rfl⟩ := hb
                have := hlow h hh
                omega
              · intro h hh
                rcases List.mem_cons.mp hh with rfl | hh'
                · exact ⟨0, by simp, by omega, by simpa using hp0⟩
                · obtain ⟨j, hj, hid, hpl⟩ := hex h hh'
                  refine ⟨j + 1, by simpa using Nat.succ_lt_succ hj, by omega, ?_⟩
                  have hshift : i + (j + 1) = i + 1 + j := by omega
                  rw [hshift]
                  simpa using hpl

/-- C1 (amended): the hit produced from the input line at 0-based index `j`
is assigned identifier number `j + 1` (rendered `transposase_<j+1>`), where
`j` counts every input line — comments, malformed lines and rejected lines
included; identifier numbers are therefore strictly increasing over hits in
input order but not consecutive when lines are skipped. -/
theorem hit_identifier_assignment (seqs : List (List Char × List Char))
    (lines : List (List Char)) (hits : List Hit)
    (he : extractFrom seqs 0 lines = Except.ok hits) :
    (hits.map Hit.idNum).Pairwise (· < ·) ∧
    ∀ h ∈ hits, ∃ j, j < lines.length ∧ h.idNum = j + 1 ∧
      processLine seqs j (lines.getD j []) = Except.ok (some h) := by
  obtain ⟨-, hpw, hex⟩ := extractFrom_ok seqs lines 0 hits he
  refine ⟨hpw, ?_⟩
  intro h hh
  obtain ⟨j, hj, hid, hpl⟩ := hex h hh
  exact ⟨j, hj, by omega, by simpa using hpl⟩

/-- Counterexample to C1 as stated: on an input whose first line is a
comment and whose second line qualifies, the single (hence first)
qualifying hit is assigned identifier number 2 (`transposase_2`), not the
claimed `transposase_1`. -/
theorem hit_identifier_counterexample :
    extractFrom sampleSeqs 0 [commentLine, goodLine] = Except.ok [sampleHit] ∧
    sampleHit.idNum ≠ 1 :=
  ⟨by decide, by decide⟩

/-- Witness for the amended C1 on the concrete two-line input. -/
theorem hit_identifier_assignment_witness :
    (([sampleHit].map Hit.idNum).Pairwise (· < ·)) ∧
    ∀ h ∈ [sampleHit],
      ∃ j, j < ([commentLine, goodLine] : List (List Char)).length ∧
        h.idNum = j + 1 ∧
        processLine sampleSeqs j (([commentLine, goodLine] :
          List (List Char)).getD j []) = Except.ok (some h) :=
  hit_identifier_assignment sampleSeqs [commentLine, goodLine] [sampleHit] (by decide)

/-- C2 (amended): a 9-field line that passes the keyword classifier but has
a non-numeric start or end field makes the whole run abort with the
uncaught `ValueError` from `int(...)` — it is not skipped; and a line with
numeric start greater than end is not treated as malformed: it still yields
a hit (with an empty window). -/
theorem coordinate_error_spec :
    (∀ (seqs : List (List Char × List Char)) (i : Nat)
        (line f1 f2 f3 f4 f5 f6 f7 f8 f9 : List Char),
        beginsWith ['#'] line = false →
        splitTab (pyStrip line) = [f1, f2, f3, f4, f5, f6, f7, f8, f9] →
        contains_keyword f9 = true →
        (pyInt? f4 = none ∨ pyInt? f5 = none) →
        processLine seqs i line = Except.error ()) ∧
    processLine seqs300 0 reversedLine = Except.ok (some reversedHit) := by
  constructor
  · intro seqs i line f1 f2 f3 f4 f5 f6 f7 f8 f9 hns hsplit hkw hbad
    have hcore : processLineCore seqs line = Except.error () := by
      unfold processLineCore
      rw [hsplit]
      rcases hbad with h4 | h5
      · cases h5' : pyInt? f5 <;> simp [hns, hkw, h4, h5']
      · cases h4' : pyInt? f4 <;> simp [hns, hkw, h5, h4']
    simp [processLine, hcore]
  · set_option maxRecDepth 10000 in decide

/-- Counterexample to C2 as stated: a qualifying 9-field line with the
non-numeric start field "abc" crashes the run instead of being skipped. -/
theorem coordinate_error_counterexample :
    extractFrom sampleSeqs 0 [badStartLine] = Except.error () := by decide

/-- Witness for the amended C2: a non-numeric end field aborts the run. -/
theorem coordinate_error_spec_witness :
    processLine sampleSeqs 0 badEndLine = Except.error () :=
  coordinate_error_spec.1 sampleSeqs 0 badEndLine "chr1".toList "src".toList
    "gene".toList "10".toList "xyz".toList ".".toList "+".toList ".".toList
    "product=transposase".toList (by decide) (by decide) (by decide)
    (Or.inr (by decide))

theorem length_reverse_complement (s : List Char) :
    (reverse_complement s).length = s.length := by
  simp [reverse_complement]

theorem pySlice_length (s : List Char) (a b : Int)
    (ha : 0 ≤ a) (hb : 0 ≤ b) (hab : a ≤ b) :
    ((pySlice s a b).length : Int) =
      min b (s.length : Int) - min a (s.length : Int) := by
  simp only [pySlice, List.length_take, List.length_drop]
  have hna : ¬ a < 0 := by omega
  have hnb : ¬ b < 0 := by omega
  rw [if_neg hna, if_neg hnb]
  omega

/-- C7 (amended): for a hit whose parsed coordinates satisfy
`0 ≤ start ≤ end`, the flank-expanded start `max(0, start - 150)` is never
negative, and the extracted window's length equals the clamped flank end
`min(end + 150, len)` minus the clamped flank start
`min(max(0, start - 150), len)` where `len` is the replicon length.  (The
`start ≤ end` hypothesis is necessary: see the counterexample.) -/
theorem flank_window_spec (seqs : List (List Char × List Char)) (i : Nat)
    (line : List Char) (h : Hit) (s : List Char)
    (hp : processLine seqs i line = Except.ok (some h))
    (hlook : lookupSeq seqs h.seqId = some s)
    (h0 : 0 ≤ h.startPos) (hse : h.startPos ≤ h.endPos) :
    (0 : Int) ≤ max 0 (h.startPos - FLANK_SIZE) ∧
    ((h.region.length : Int) =
      min (h.endPos + FLANK_SIZE) (s.length : Int) -
      min (max 0 (h.startPos - FLANK_SIZE)) (s.length : Int)) := by
  refine ⟨le_max_left 0 _, ?_⟩
  obtain ⟨-, c, hcore, rfl⟩ := processLine_ok_some seqs i line h hp
  obtain ⟨s', hlook', -, hregion⟩ := processLineCore_ok_some seqs line c hcore
  simp only [mkHit] at hlook h0 hse ⊢
  rw [hlook'] at hlook
  have hss : s' = s := by simpa using hlook
  rw [hss] at hregion
  rw [hregion]
  have hF : FLANK_SIZE = 150 := rfl
  have ha : (0 : Int) ≤ max 0 (c.startPos - FLANK_SIZE) := le_max_left 0 _
  have hb : (0 : Int) ≤ c.endPos + FLANK_SIZE := by omega
  have hab : max 0 (c.startPos - FLANK_SIZE) ≤ c.endPos + FLANK_SIZE := by
    rw [hF] at *
    omega
  by_cases hstr : c.strand = ['-']
  · rw [if_pos hstr, length_reverse_complement,
        pySlice_length s _ _ ha hb hab]
  · rw [if_neg hstr, pySlice_length s _ _ ha hb hab]

/-- Counterexample to C7 as stated: a qualifying hit with start 500 and end
100 on a 300-base replicon has an empty extracted window (length 0), while
the clamped flank end minus the clamped flank start is 250 − 300 = −50. -/
theorem flank_window_counterexample :
    processLine seqs300 0 reversedLine2 = Except.ok (some reversedHit2) ∧
    ¬ ((reversedHit2.region.length : Int) =
        min (reversedHit2.endPos + FLANK_SIZE)
          ((List.replicate 300 'A').length : Int) -
        min (max 0 (reversedHit2.startPos - FLANK_SIZE))
          ((List.replicate 300 'A').length : Int)) := by
  constructor
  · set_option maxRecDepth 10000 in decide
  · decide

/-- Witness for the amended C7 on the concrete line with coordinates
10..20 over the 5-base replicon: window length 5 = min(170,5) − min(0,5). -/
theorem flank_window_spec_witness :
    (0 : Int) ≤ max 0 (goodHit.startPos - FLANK_SIZE) ∧
    ((goodHit.region.length : Int) =
      min (goodHit.endPos + FLANK_SIZE) (("ACGTA".toList : List Char).length : Int) -
      min (max 0 (goodHit.startPos - FLANK_SIZE))
        (("ACGTA".toList : List Char).length : Int)) :=
  flank_window_spec sampleSeqs 0 goodLine goodHit "ACGTA".toList (by decide)
    (by decide) (by decide) (by decide)

/-! ## Assembly filter (C9) -/

/-- C9: `filter_prefer_gcf` is order-dependent, contradicting both the
claim and the function's own comment ("Prefer GCF assemblies over GCA when
both are present"): when the GCA entry precedes its GCF counterpart the GCA
entry is kept (both come out), and only when the GCF entry comes first is
the GCA entry dropped.  The driver `analyze_directory` feeds this function
a lexicographically sorted file list, in which `GCA_*` sorts before
`GCF_*`. -/
theorem gcf_filter_order_dependence :
    filter_prefer_gcf [("GCA_000001.1".toList, 5), ("GCF_000001.1".toList, 7)] =
      [("GCA_000001.1".toList, 5), ("GCF_000001.1".toList, 7)] ∧
    filter_prefer_gcf [("GCF_000001.1".toList, 7), ("GCA_000001.1".toList, 5)] =
      [("GCF_000001.1".toList, 7)] :=
  ⟨by decide, by decide⟩
